import Mathlib

/-
Verification of the score aggregator, local-score wrapper and MCMC driver of
sumu/gadget.py.  The external collaborators (CandidateRestrictedScore,
CandidateComplementScore, PartitionMCMC, MC3, the BDeu/BGe scorers and the
bitmap utilities) are not part of the visible source; they are represented by
abstract function fields, except where the specification pins their meaning
down (those definitions carry a doc comment starting with
"Modelled from the spec:").

Floating point values are modelled by an explicit carrier with -inf, +inf and
nan; the finite values the claims manipulate are abstract, so their payload is
taken in the ordered ring of integers, on which kernel evaluation works;
np.logaddexp on two finite arguments is an abstract commutative binary
operation carried inside the model, and the np.random.exponential() draws
consumed by Score.sample_pset are passed in explicitly (as a stream indexed
by a counter).
-/

/-- Model of an IEEE double as far as the code under study observes it:
nan, the two infinities, and an ordered-ring payload for finite values. -/
inductive FloatV where
  | nan : FloatV
  | posinf : FloatV
  | neginf : FloatV
  | fin : ℤ → FloatV
deriving DecidableEq, Repr

/-- IEEE negation. -/
def fnegF : FloatV → FloatV
  | FloatV.nan => FloatV.nan
  | FloatV.posinf => FloatV.neginf
  | FloatV.neginf => FloatV.posinf
  | FloatV.fin x => FloatV.fin (-x)

/-- IEEE addition: nan propagates, opposite infinities give nan. -/
def faddF : FloatV → FloatV → FloatV
  | FloatV.nan, _ => FloatV.nan
  | _, FloatV.nan => FloatV.nan
  | FloatV.posinf, FloatV.neginf => FloatV.nan
  | FloatV.neginf, FloatV.posinf => FloatV.nan
  | FloatV.posinf, _ => FloatV.posinf
  | _, FloatV.posinf => FloatV.posinf
  | FloatV.neginf, _ => FloatV.neginf
  | _, FloatV.neginf => FloatV.neginf
  | FloatV.fin a, FloatV.fin b => FloatV.fin (a + b)

/-- IEEE subtraction, defined as addition of the negation. -/
def fsubF (a b : FloatV) : FloatV := faddF a (fnegF b)

/-- IEEE strict comparison: any comparison against nan is false. -/
def fltF : FloatV → FloatV → Bool
  | FloatV.nan, _ => false
  | _, FloatV.nan => false
  | FloatV.neginf, FloatV.neginf => false
  | FloatV.neginf, _ => true
  | _, FloatV.neginf => false
  | FloatV.posinf, _ => false
  | FloatV.fin _, FloatV.posinf => true
  | FloatV.fin a, FloatV.fin b => decide (a < b)

/-- np.logaddexp on the FloatV carrier.  The finite-finite case is the given
abstract binary operation lae (the model never needs its numeric value, only
that np.logaddexp is commutative, which the Score structure records). -/
def logaddexpF (lae : ℤ → ℤ → ℤ) : FloatV → FloatV → FloatV
  | FloatV.nan, _ => FloatV.nan
  | _, FloatV.nan => FloatV.nan
  | FloatV.posinf, _ => FloatV.posinf
  | _, FloatV.posinf => FloatV.posinf
  | FloatV.neginf, y => y
  | x, FloatV.neginf => x
  | FloatV.fin a, FloatV.fin b => FloatV.fin (lae a b)

lemma logaddexpF_comm (lae : ℤ → ℤ → ℤ) (h : ∀ a b, lae a b = lae b a)
    (x y : FloatV) : logaddexpF lae x y = logaddexpF lae y x := by
  cases x <;> cases y <;> first
    | rfl
    | exact congrArg FloatV.fin (h _ _)

/-- Modelled from the spec: the bitset codec (sumu.utils.bitmap.bm, not under
src/).  bm(S, idx=C) produces the local mask in which bit i is set exactly
when C[i] is a member of S ("bit i of a local mask iff C[v][i]"). -/
def bmOf : List ℕ → Finset ℕ → ℕ
  | [], _ => 0
  | x :: xs, S => (if x ∈ S then 1 else 0) + 2 * bmOf xs S

/-- Modelled from the spec: the inverse direction of the bitset codec
(sumu.utils.bitmap.bm_to_ints, not under src/): the set of bit positions set
in a mask. -/
def bmToInts (m : ℕ) : Finset ℕ :=
  (Finset.range (m + 1)).filter (fun i => m.testBit i)

lemma bmOf_empty (idx : List ℕ) : bmOf idx ∅ = 0 := by
  induction idx with
  | nil => rfl
  | cons x xs ih => simp [bmOf, ih]

lemma bmOf_ne_zero (idx : List ℕ) (S : Finset ℕ)
    (h : ∃ x ∈ idx, x ∈ S) : bmOf idx S ≠ 0 := by
  induction idx with
  | nil => simp at h
  | cons a l ih =>
    rcases h with ⟨x, hx, hxS⟩
    rcases List.mem_cons.mp hx with h1 | h1
    · subst h1
      simp [bmOf, hxS]
    · have := ih ⟨x, h1, hxS⟩
      simp only [bmOf]
      omega

/-- Abstract interface of the CandidateRestrictedScore cache (external, from
sumu.weight_sum): its sum method with and without the must-intersect mask, and
its perturbed-threshold sampler returning a local parent-set mask. -/
structure CRScore where
  sum2 : ℕ → ℕ → FloatV
  sum3 : ℕ → ℕ → ℕ → FloatV
  sample_pset : ℕ → ℕ → ℕ → FloatV → ℕ

/-- Abstract interface of the CandidateComplementScore cache (external, from
sumu.weight_sum): its sum over complement parent sets and its
perturbed-threshold sampler returning an explicit parent set with its score. -/
structure CCScore where
  sum3 : ℕ → Finset ℕ → Finset ℕ → FloatV
  sample_pset : ℕ → Finset ℕ → Finset ℕ → FloatV → Finset ℕ × FloatV

/-- Modelled from the spec: the four-argument form
CandidateComplementScore.sum(v, U, T, W) (the class is not under src/).  Per
the aggregator section of the spec, the complement cache combines the supplied
restricted weight with the complement-space weight via logaddexp. -/
def CCScore.sum4 (lae : ℤ → ℤ → ℤ) (cc : CCScore) (v : ℕ) (U T : Finset ℕ)
    (W : FloatV) : FloatV :=
  logaddexpF lae W (cc.sum3 v U T)

/-- The Score aggregator (class Score of gadget.py).  C is the candidate-set
table (an ordered list per node), n its size, score_array the per-node array
of local scores indexed by local mask, and the two cache slots as built by
Gadget; lae is the finite-finite case of np.logaddexp, which is commutative. -/
structure Score where
  n : ℕ
  C : ℕ → List ℕ
  lae : ℤ → ℤ → ℤ
  lae_comm : ∀ a b, lae a b = lae b a
  score_array : ℕ → ℕ → FloatV
  c_r_score : CRScore
  c_c_score : Option CCScore

/-- The candidate set of node v as a set (the source intersects the Python
sets U and T with the list C[v]). -/
def Score.CvSet (st : Score) (v : ℕ) : Finset ℕ := (st.C v).toFinset

/-- First phase of Score.sum (gadget.py lines 494 to 503): the restricted-space
weight W_prime, instrumented with the list of queries made to the
candidate-restricted cache (each query records node, U mask and optional
T mask). -/
def Score.wPrimeQ (st : Score) (v : ℕ) (U T : Finset ℕ) :
    FloatV × List (ℕ × ℕ × Option ℕ) :=
  let U_bm := bmOf (st.C v) (U ∩ st.CvSet v)
  let T_bm := bmOf (st.C v) (T ∩ st.CvSet v)
  if T.Nonempty then
    if T_bm = 0 then (FloatV.neginf, [])
    else (st.c_r_score.sum3 v U_bm T_bm, [(v, U_bm, some T_bm)])
  else (st.c_r_score.sum2 v U_bm, [(v, U_bm, none)])

/-- Score.sum of gadget.py (lines 474 to 511), instrumented with the list of
restricted-cache queries made. -/
def Score.sumq (st : Score) (v : ℕ) (U T : Finset ℕ) :
    FloatV × List (ℕ × ℕ × Option ℕ) :=
  let p := st.wPrimeQ v U T
  match st.c_c_score with
  | none => p
  | some cc =>
    if U ⊆ st.CvSet v then p
    else if T.Nonempty then (CCScore.sum4 st.lae cc v U T p.1, p.2)
    else (CCScore.sum4 st.lae cc v U U p.1, p.2)

/-- Score.sum of gadget.py: the value part of the instrumented version. -/
def Score.sum (st : Score) (v : ℕ) (U T : Finset ℕ) : FloatV :=
  (st.sumq v U T).1

/-- The w_crs local variable of Score.sample_pset (identical to the W_prime
computation of Score.sum). -/
def Score.wCRS (st : Score) (v : ℕ) (U T : Finset ℕ) : FloatV :=
  (st.wPrimeQ v U T).1

/-- The w_ccs local variable of Score.sample_pset (gadget.py lines 527 to
533): -inf unless the complement cache is present and U is not contained in
the candidate set of v. -/
def Score.wCCS (st : Score) (v : ℕ) (U T : Finset ℕ) : FloatV :=
  match st.c_c_score with
  | none => FloatV.neginf
  | some cc =>
    if U ⊆ st.CvSet v then FloatV.neginf
    else if T.Nonempty then cc.sum3 v U T
    else cc.sum3 v U U

/-- Score.sample_pset of gadget.py (lines 514 to 550).  The two
np.random.exponential() draws are passed explicitly as e1 (the race draw of
line 535) and e2 (the fresh threshold draw of lines 537, 544 and 546).  The
complement branch with an absent complement cache dereferences None in the
source; it is none here. -/
def Score.sample_pset (st : Score) (e1 e2 : ℤ) (v : ℕ) (U T : Finset ℕ) :
    Option ((ℕ × Finset ℕ) × FloatV) :=
  let U_bm := bmOf (st.C v) (U ∩ st.CvSet v)
  let T_bm := bmOf (st.C v) (T ∩ st.CvSet v)
  let w_crs := st.wCRS v U T
  let w_ccs := st.wCCS v U T
  if fltF (FloatV.fin (-e1)) (fsubF w_crs (logaddexpF st.lae w_ccs w_crs)) then
    let pset := st.c_r_score.sample_pset v U_bm T_bm (fsubF w_crs (FloatV.fin e2))
    some ((v, (bmToInts pset).image (fun i => (st.C v).getD i 0)),
      st.score_array v pset)
  else
    match st.c_c_score with
    | none => none
    | some cc =>
      let pr :=
        if T.Nonempty then cc.sample_pset v U T (fsubF w_ccs (FloatV.fin e2))
        else cc.sample_pset v U U (fsubF w_ccs (FloatV.fin e2))
      some ((v, pr.1), pr.2)

/-- The block-locating loop of Score.sample_DAG (gadget.py lines 556 to 558):
the Python loop variable i ends at the index of the first block containing v,
or at len(R) - 1 when no block contains v (the loop then runs out without
break). -/
def blockOf (R : List (Finset ℕ)) (v : ℕ) : ℕ :=
  min (R.findIdx (fun B => decide (v ∈ B))) (R.length - 1)

/-- set().union(*R[:i]) of gadget.py line 563: the union of the blocks before
index i. -/
def unionTake (R : List (Finset ℕ)) (i : ℕ) : Finset ℕ :=
  (R.take i).foldl (fun a b => a ∪ b) ∅

/-- A valid ordered partition of the variables 0..n-1: non-empty pairwise
disjoint blocks whose union is the whole variable set. -/
def validPart (n : ℕ) (R : List (Finset ℕ)) : Prop :=
  (∀ B ∈ R, B ≠ ∅) ∧ List.Pairwise (fun A B => A ∩ B = ∅) R ∧
    R.foldl (fun a b => a ∪ b) ∅ = Finset.range n

instance (n : ℕ) (R : List (Finset ℕ)) : Decidable (validPart n R) := by
  unfold validPart
  infer_instance

/-- One iteration of the Score.sample_DAG loop body for variable v (gadget.py
lines 555 to 565), threading the index k into the stream rng of exponential
draws: a first-block variable receives the empty family with score
Score.sum(v, empty, empty) and consumes no draws; any other variable receives
the result of Score.sample_pset on U (union of earlier blocks) and T (the
preceding block), consuming two draws. -/
def Score.fam_at (st : Score) (rng : ℕ → ℤ) (R : List (Finset ℕ)) (v k : ℕ) :
    Option (((ℕ × Finset ℕ) × FloatV) × ℕ) :=
  if blockOf R v = 0 then
    some (((v, (∅ : Finset ℕ)), st.sum v ∅ ∅), k)
  else
    Option.map (fun p => (p, k + 2))
      (st.sample_pset (rng k) (rng (k + 1)) v (unionTake R (blockOf R v))
        (R.getD (blockOf R v - 1) ∅))

/-- The accumulator loop of Score.sample_DAG (gadget.py lines 553 to 567):
DAG is the list of families appended in variable order and the total score is
accumulated family by family. -/
def Score.sample_DAG_go (st : Score) (rng : ℕ → ℤ) (R : List (Finset ℕ)) :
    List ℕ → ℕ → List (ℕ × Finset ℕ) → FloatV →
    Option ((List (ℕ × Finset ℕ) × FloatV) × ℕ)
  | [], k, dag, sc => some ((dag, sc), k)
  | v :: vs, k, dag, sc =>
    match st.fam_at rng R v k with
    | none => none
    | some ((fam, fsc), k2) =>
      st.sample_DAG_go rng R vs k2 (dag ++ [fam]) (faddF sc fsc)

/-- Score.sample_DAG of gadget.py (lines 552 to 568): loop over all variables
with DAG = [] and DAG_score = 0 initially; the final draw counter is also
returned. -/
def Score.sample_DAG (st : Score) (rng : ℕ → ℤ) (k : ℕ)
    (R : List (Finset ℕ)) : Option ((List (ℕ × Finset ℕ) × FloatV) × ℕ) :=
  st.sample_DAG_go rng R (List.range st.n) k [] (FloatV.fin 0)

/-- The per-variable families together with their scores, in variable order:
the reference list against which Score.sample_DAG is characterised. -/
def Score.fam_list (st : Score) (rng : ℕ → ℤ) (R : List (Finset ℕ)) :
    List ℕ → ℕ → Option (List ((ℕ × Finset ℕ) × FloatV))
  | [], _ => some []
  | v :: vs, k =>
    match st.fam_at rng R v k with
    | none => none
    | some (p, k2) => Option.map (fun l => p :: l) (st.fam_list rng R vs k2)

/-- Number of variables of the list that lie outside the first block of R;
each of them consumes two exponential draws in Score.sample_DAG. -/
def nonRootCount (R : List (Finset ℕ)) (l : List ℕ) : ℕ :=
  (l.filter (fun u => decide (blockOf R u ≠ 0))).length

/-- Default entry used for out-of-range list access in the statements. -/
def dummyFam : (ℕ × Finset ℕ) × FloatV := ((0, (∅ : Finset ℕ)), FloatV.fin 0)

/-- Abstract model of the MCMC object built by Gadget._init_mcmc (the classes
PartitionMCMC and MC3 are external, from sumu.mcmc): one call of
self.mcmc.sample() advances the hidden chain state and yields the element [0]
of its return value, the ordered partition driving DAG sampling. -/
structure MCMCModel (σ : Type) where
  step : σ → σ × List (Finset ℕ)

/-- Chain state after one self.mcmc.sample() call, discarding the partition. -/
def chainStep {σ : Type} (m : MCMCModel σ) (s : σ) : σ := (m.step s).1

/-- Chain state after a number of self.mcmc.sample() calls. -/
def chainAfter {σ : Type} (m : MCMCModel σ) (s : σ) : ℕ → σ
  | 0 => s
  | j + 1 => chainStep m (chainAfter m s j)

/-- The sampling loop of Gadget._run_mcmc (gadget.py lines 345 to 357) with
the stats printing stripped (it only writes to the log): steps iterations
remain, i is the Python loop variable, s the chain state and k the index into
the stream of exponential draws consumed by DAG sampling.  At a thinned
iteration one mcmc.sample() call supplies the partition to
Score.sample_DAG and the pair is appended; otherwise mcmc.sample() is called
and discarded. -/
def samplingLoop {σ : Type} (st : Score) (rng : ℕ → ℤ) (m : MCMCModel σ)
    (thinning : ℕ) :
    ℕ → ℕ → σ → ℕ →
    Option ((List (List (ℕ × Finset ℕ)) × List FloatV) × σ × ℕ)
  | 0, _, s, k => some (([], []), s, k)
  | steps + 1, i, s, k =>
    if i % thinning = 0 then
      match Score.sample_DAG st rng k (m.step s).2 with
      | none => none
      | some ((dag, sc), k2) =>
        match samplingLoop st rng m thinning steps (i + 1) (m.step s).1 k2 with
        | none => none
        | some ((dags, scs), s2, k3) => some ((dag :: dags, sc :: scs), s2, k3)
    else
      samplingLoop st rng m thinning steps (i + 1) (chainStep m s) k

/-- Gadget._run_mcmc of gadget.py (lines 296 to 363), stats printing stripped:
burn_in mcmc.sample() calls whose results are discarded, then the sampling
loop over the configured number of iterations starting at i = 0. -/
def Gadget.run_mcmc {σ : Type} (st : Score) (rng : ℕ → ℤ) (m : MCMCModel σ)
    (s0 : σ) (burn_in iterations thinning k0 : ℕ) :
    Option ((List (List (ℕ × Finset ℕ)) × List FloatV) × σ × ℕ) :=
  samplingLoop st rng m thinning iterations 0 (chainAfter m s0 burn_in) k0

/-- The sampling iteration indices at which a DAG is recorded. -/
def thinnedIdxs (iterations thinning : ℕ) : List ℕ :=
  (List.range iterations).filter (fun i => i % thinning = 0)

/-- Reference form of the recorded (DAG, score) pairs: for each listed
iteration offset o, the chain is advanced to o steps past the base state s,
one further mcmc.sample() call yields the partition, and Score.sample_DAG is
run on it, threading the exponential-draw counter. -/
def recsFrom {σ : Type} (st : Score) (rng : ℕ → ℤ) (m : MCMCModel σ) (s : σ) :
    List ℕ → ℕ → Option (List (List (ℕ × Finset ℕ) × FloatV) × ℕ)
  | [], k => some ([], k)
  | o :: os, k =>
    match Score.sample_DAG st rng k (m.step (chainAfter m s o)).2 with
    | none => none
    | some (p, k2) =>
      match recsFrom st rng m s os k2 with
      | none => none
      | some (l, k3) => some (p :: l, k3)

/-- Gadget._precompute_candidate_complement_scoring (gadget.py lines 267 to
279): the complement cache slot starts as None and is filled only when
K < n - 1; the construction itself (CandidateComplementScore, external) is
abstracted by the builder argument. -/
def Gadget.precompute_cc (n K : ℕ) (build : Unit → CCScore) : Option CCScore :=
  if K < n - 1 then some (build ()) else none

/-- The shape of the sampler built by Gadget._init_mcmc: either an MC3
ensemble of PartitionMCMC chains, recorded by their temperature arguments, or
a single PartitionMCMC built without a temperature argument. -/
inductive MCMCSetup where
  | ensemble (temps : List ℚ) : MCMCSetup
  | single : MCMCSetup
deriving DecidableEq, Repr

/-- The temperature list i / (M - 1) for i in range(M) of gadget.py line 290. -/
def tempsOf (M : ℕ) : List ℚ :=
  (List.range M).map (fun i : ℕ => (i : ℚ) / ((M : ℚ) - 1))

/-- Gadget._init_mcmc of gadget.py (lines 281 to 294), reduced to the sampler
shape it builds: MC3 over PartitionMCMC chains at temperatures i / (mc3 - 1)
when mc3 exceeds 1, and a single PartitionMCMC otherwise. -/
def Gadget.init_mcmc (mc3 : ℕ) : MCMCSetup :=
  if 1 < mc3 then MCMCSetup.ensemble (tempsOf mc3) else MCMCSetup.single

/-- The structure prior selected at LocalScore construction (the "name" key of
the prior parameter): "fair" or "unif". -/
inductive PriorKind where
  | fair : PriorKind
  | unif : PriorKind
deriving DecidableEq, Repr

/-- The error kinds LocalScore.local can raise: the two explicit IndexError
raises of gadget.py lines 413 and 418, and the ValueError that min() raises on
line 417 when pset is empty while v is out of range. -/
inductive LocalErr where
  | selfInPset : LocalErr
  | outOfRange : LocalErr
  | badMinArg : LocalErr
deriving DecidableEq, Repr

/-- LocalScore._precompute_prior (gadget.py lines 400 to 404) read through
LocalScore._prior_fair: the fair-prior table entry at indegree k is
-log(comb(n - 1, k)).  comb (sumu.utils.math_utils, not under src/) is the
binomial coefficient, modelled by Nat.choose, and np.log by Real.log. -/
noncomputable def LocalScore.prior_table (n k : ℕ) : ℝ :=
  -Real.log ((n - 1).choose k)

/-- The indegree prior penalty self.priorf[...](len(pset)) of gadget.py line
423: the fair table entry, or 0 under the "unif" prior (line 398). -/
noncomputable def LocalScore.priorVal (prior : PriorKind) (n k : ℕ) : ℝ :=
  match prior with
  | PriorKind.fair => LocalScore.prior_table n k
  | PriorKind.unif => 0

/-- LocalScore._local of gadget.py (lines 421 to 423): the external oracle
score (scorer.local, abstracted as the function argument) plus the indegree
prior penalty. -/
noncomputable def LocalScore.localInner (n : ℕ) (scorer : ℤ → Finset ℤ → ℝ)
    (prior : PriorKind) (v : ℤ) (pset : Finset ℤ) : ℝ :=
  scorer v pset + LocalScore.priorVal prior n pset.card

/-- LocalScore.local of gadget.py (lines 406 to 419), the safe entry point:
raises on self-membership, returns directly for an in-range v with empty
pset, raises when the min/max range check fails, and raises the ValueError of
min() on an empty pset reached with v out of range. -/
noncomputable def LocalScore.local (n : ℕ) (scorer : ℤ → Finset ℤ → ℝ)
    (prior : PriorKind) (v : ℤ) (pset : Finset ℤ) : Except LocalErr ℝ :=
  if v ∈ pset then Except.error LocalErr.selfInPset
  else if (0 ≤ v ∧ v < (n : ℤ)) ∧ pset = ∅ then
    Except.ok (LocalScore.localInner n scorer prior v pset)
  else if h : pset.Nonempty then
    if min v (pset.min' h) < 0 ∨ (n : ℤ) ≤ max v (pset.max' h) then
      Except.error LocalErr.outOfRange
    else Except.ok (LocalScore.localInner n scorer prior v pset)
  else Except.error LocalErr.badMinArg

/-- The candidate-restricted cache query issued by Score.sum and
Score.sample_pset on the masks of U and T restricted to the candidate set of
v, as the claims describe it. -/
def Score.crsQuery (st : Score) (v : ℕ) (U T : Finset ℕ) : FloatV :=
  if T.Nonempty then
    st.c_r_score.sum3 v (bmOf (st.C v) (U ∩ st.CvSet v))
      (bmOf (st.C v) (T ∩ st.CvSet v))
  else st.c_r_score.sum2 v (bmOf (st.C v) (U ∩ st.CvSet v))

/-- The complement-cache contribution used when the complement branch of
Score.sum applies (with T replaced by U when T is empty, as on line 511). -/
def Score.ccWeight (st : Score) (v : ℕ) (U T : Finset ℕ) : FloatV :=
  match st.c_c_score with
  | none => FloatV.neginf
  | some cc => if T.Nonempty then cc.sum3 v U T else cc.sum3 v U U

lemma wPrimeQ_eq_crsQuery (st : Score) (v : ℕ) (U T : Finset ℕ)
    (hT : T = ∅ ∨ (T ∩ st.CvSet v).Nonempty) :
    (st.wPrimeQ v U T).1 = st.crsQuery v U T := by
  rcases hT with hT | hT
  · subst hT
    simp [Score.wPrimeQ, Score.crsQuery]
  · have hTne : T.Nonempty := by
      rcases hT with ⟨x, hx⟩
      exact ⟨x, (Finset.mem_inter.mp hx).1⟩
    have hbm : bmOf (st.C v) (T ∩ st.CvSet v) ≠ 0 := by
      rcases hT with ⟨x, hx⟩
      exact bmOf_ne_zero _ _
        ⟨x, List.mem_toFinset.mp (Finset.mem_inter.mp hx).2, hx⟩
    simp [Score.wPrimeQ, Score.crsQuery, hTne, hbm]

/-- Claim C2: for every node v and sets U and T (T being empty or meeting the
candidate set of v), Score.sum restricts U and T to C[v] via the bitmask
codec and queries the candidate-restricted cache for W_restricted; if the
complement cache is absent or U is contained in C[v] it returns W_restricted
unchanged, and otherwise it returns the logaddexp of W_restricted and the
complement-cache contribution. -/
theorem Score.sum_spec (st : Score) (v : ℕ) (U T : Finset ℕ)
    (hT : T = ∅ ∨ (T ∩ st.CvSet v).Nonempty) :
    st.sum v U T =
      if st.c_c_score.isNone = true ∨ U ⊆ st.CvSet v then st.crsQuery v U T
      else logaddexpF st.lae (st.crsQuery v U T) (st.ccWeight v U T) := by
  have hw := wPrimeQ_eq_crsQuery st v U T hT
  cases hcc : st.c_c_score with
  | none =>
    simp [Score.sum, Score.sumq, hcc, hw]
  | some cc =>
    by_cases hU : U ⊆ st.CvSet v
    · simp [Score.sum, Score.sumq, hcc, hU, hw]
    · by_cases hTn : T.Nonempty
      · simp [Score.sum, Score.sumq, hcc, hU, hTn, hw, CCScore.sum4,
          Score.ccWeight]
      · simp [Score.sum, Score.sumq, hcc, hU, hTn, hw, CCScore.sum4,
          Score.ccWeight]

/-- Concrete candidate table over three variables: every other variable is a
candidate parent. -/
def exC : ℕ → List ℕ := fun v =>
  if v = 0 then [1, 2] else if v = 1 then [0, 2] else [0, 1]

/-- Concrete restricted cache used by the witnesses. -/
def exCR : CRScore :=
  { sum2 := fun _ _ => FloatV.fin 0
    sum3 := fun _ _ _ => FloatV.fin 0
    sample_pset := fun _ _ _ _ => 1 }

/-- Concrete aggregator model used by the witnesses: three variables, no
complement cache, max as the finite case of logaddexp. -/
def exScore : Score :=
  { n := 3
    C := exC
    lae := fun a b => max a b
    lae_comm := fun a b => max_comm a b
    score_array := fun _ _ => FloatV.fin 0
    c_r_score := exCR
    c_c_score := none }

/-- Witness for claim C2 at the concrete model: node 0, U = {1}, T empty. -/
theorem Score.sum_spec_w :
    Score.sum exScore 0 {1} ∅ =
      if exScore.c_c_score.isNone = true ∨ ({1} : Finset ℕ) ⊆ exScore.CvSet 0
      then exScore.crsQuery 0 {1} ∅
      else logaddexpF exScore.lae (exScore.crsQuery 0 {1} ∅)
        (exScore.ccWeight 0 {1} ∅) :=
  Score.sum_spec exScore 0 {1} ∅ (Or.inl rfl)

/-- Claim C9: for a non-empty T disjoint from the candidate set of v, when the
complement cache is absent or U is contained in C[v], Score.sum returns -inf
and issues no query to the restricted cache. -/
theorem Score.sum_neginf (st : Score) (v : ℕ) (U T : Finset ℕ)
    (h1 : T.Nonempty) (h2 : T ∩ st.CvSet v = ∅)
    (h3 : st.c_c_score.isNone = true ∨ U ⊆ st.CvSet v) :
    st.sum v U T = FloatV.neginf ∧ (st.sumq v U T).2 = [] := by
  have hp : st.wPrimeQ v U T = (FloatV.neginf, []) := by
    simp [Score.wPrimeQ, h1, h2, bmOf_empty]
  cases hcc : st.c_c_score with
  | none => simp [Score.sum, Score.sumq, hcc, hp]
  | some cc =>
    have hU : U ⊆ st.CvSet v := by
      rcases h3 with h3 | h3
      · rw [hcc] at h3
        simp [Option.isNone] at h3
      · exact h3
    simp [Score.sum, Score.sumq, hcc, hU, hp]

/-- Witness for claim C9 at the concrete model: node 0, U = {1}, T = {5}
which misses the candidate set {1, 2} of node 0. -/
theorem Score.sum_neginf_w :
    Score.sum exScore 0 {1} {5} = FloatV.neginf ∧
      (Score.sumq exScore 0 {1} {5}).2 = [] :=
  Score.sum_neginf exScore 0 {1} {5} (by decide) (by decide) (Or.inl rfl)

/-- The restricted branch of Score.sample_pset (gadget.py lines 536 to 539):
the restricted cache samples a local mask under the perturbed threshold
w_crs minus the fresh exponential draw, the family is decoded through the
candidate table, and the score is read from score_array. -/
def Score.restrictedDraw (st : Score) (e2 : ℤ) (v : ℕ) (U T : Finset ℕ) :
    (ℕ × Finset ℕ) × FloatV :=
  let pset := st.c_r_score.sample_pset v (bmOf (st.C v) (U ∩ st.CvSet v))
    (bmOf (st.C v) (T ∩ st.CvSet v)) (fsubF (st.wCRS v U T) (FloatV.fin e2))
  ((v, (bmToInts pset).image (fun i => (st.C v).getD i 0)),
    st.score_array v pset)

/-- The complement branch of Score.sample_pset (gadget.py lines 541 to 548):
the complement cache samples under the perturbed threshold w_ccs minus the
fresh exponential draw (with T replaced by U when T is empty); dereferencing
an absent cache is none. -/
def Score.complementDraw (st : Score) (e2 : ℤ) (v : ℕ) (U T : Finset ℕ) :
    Option ((ℕ × Finset ℕ) × FloatV) :=
  match st.c_c_score with
  | none => none
  | some cc =>
    let pr :=
      if T.Nonempty then cc.sample_pset v U T (fsubF (st.wCCS v U T) (FloatV.fin e2))
      else cc.sample_pset v U U (fsubF (st.wCCS v U T) (FloatV.fin e2))
    some ((v, pr.1), pr.2)

lemma Score.sample_pset_eq (st : Score) (e1 e2 : ℤ) (v : ℕ) (U T : Finset ℕ) :
    st.sample_pset e1 e2 v U T =
      if fltF (FloatV.fin (-e1))
          (fsubF (st.wCRS v U T)
            (logaddexpF st.lae (st.wCCS v U T) (st.wCRS v U T)))
      then some (st.restrictedDraw e2 v U T)
      else st.complementDraw e2 v U T := rfl

/-- Claim C3: Score.sample_pset selects between the branches by the
exponential race: with E the first exponential draw, the restricted branch is
taken exactly when -E is below W_restricted minus
logaddexp(W_restricted, W_complement); the selected branch then samples under
its weight perturbed by a fresh exponential draw. -/
theorem Score.sample_pset_race (st : Score) (e1 e2 : ℤ) (v : ℕ)
    (U T : Finset ℕ) :
    st.sample_pset e1 e2 v U T =
      if fltF (FloatV.fin (-e1))
          (fsubF (st.wCRS v U T)
            (logaddexpF st.lae (st.wCRS v U T) (st.wCCS v U T)))
      then some (st.restrictedDraw e2 v U T)
      else st.complementDraw e2 v U T := by
  rw [Score.sample_pset_eq, logaddexpF_comm st.lae st.lae_comm]

/-- Claim C8: whenever the complement cache is absent or U is inside the
candidate set of v, a finite restricted weight and a positive race draw force
the restricted branch of Score.sample_pset, whose result decodes the sampled
mask through the candidate table and scores it by score_array. -/
theorem Score.sample_pset_restricted (st : Score) (e1 e2 : ℤ) (v : ℕ)
    (U T : Finset ℕ) (hcc : st.c_c_score.isNone = true ∨ U ⊆ st.CvSet v)
    (hfin : ∃ q, st.wCRS v U T = FloatV.fin q) (he1 : 0 < e1) :
    st.sample_pset e1 e2 v U T = some (st.restrictedDraw e2 v U T) := by
  obtain ⟨q, hq⟩ := hfin
  have hccs : st.wCCS v U T = FloatV.neginf := by
    cases hcc2 : st.c_c_score with
    | none => simp [Score.wCCS, hcc2]
    | some cc =>
      have hU : U ⊆ st.CvSet v := by
        rcases hcc with h | h
        · rw [hcc2] at h
          simp at h
        · exact h
      simp [Score.wCCS, hcc2, hU]
  have hcond : fltF (FloatV.fin (-e1))
      (fsubF (st.wCRS v U T)
        (logaddexpF st.lae (st.wCCS v U T) (st.wCRS v U T))) = true := by
    rw [hccs, hq]
    simp only [logaddexpF, fsubF, fnegF, faddF, fltF, decide_eq_true_eq]
    linarith
  rw [Score.sample_pset_eq, if_pos hcond]

/-- Witness for claim C8 at the concrete model: node 0, U = {1}, T empty,
both exponential draws equal to 1. -/
theorem Score.sample_pset_restricted_w :
    Score.sample_pset exScore 1 1 0 {1} ∅ =
      some (Score.restrictedDraw exScore 1 0 {1} ∅) :=
  Score.sample_pset_restricted exScore 1 1 0 {1} ∅ (Or.inl rfl)
    ⟨0, by decide⟩ (by norm_num)

/-- Concrete complement cache used by the witnesses. -/
def exCC : CCScore :=
  { sum3 := fun _ _ _ => FloatV.fin 0
    sample_pset := fun _ _ _ _ => ((∅ : Finset ℕ), FloatV.fin 0) }

/-- Concrete complement-cache builder used by the witnesses. -/
def exBuild : Unit → CCScore := fun _ => exCC

/-- Claim C5: Gadget builds the complement-score cache exactly when
K < n - 1, the check being the single setup-time condition of
_precompute_candidate_complement_scoring; when it does not, the slot is None
and the query path of the aggregator never touches complement-space logic
(the returned sum is the restricted weight and the sampling weight w_ccs is
pinned to -inf). -/
theorem Gadget.precompute_cc_spec (n K : ℕ) (build : Unit → CCScore) :
    ((Gadget.precompute_cc n K build).isSome = true ↔ K < n - 1) ∧
    (¬ K < n - 1 → Gadget.precompute_cc n K build = none) ∧
    (∀ st : Score, st.c_c_score = none → ∀ v : ℕ, ∀ U T : Finset ℕ,
      st.sum v U T = (st.wPrimeQ v U T).1 ∧ st.wCCS v U T = FloatV.neginf) := by
  refine ⟨?_, ?_, ?_⟩
  · by_cases h : K < n - 1 <;> simp [Gadget.precompute_cc, h]
  · intro h
    simp [Gadget.precompute_cc, h]
  · intro st hst v U T
    exact ⟨by simp [Score.sum, Score.sumq, hst], by simp [Score.wCCS, hst]⟩

/-- Witness for claim C5: with n = 3 variables and K = 2 candidates the
complement cache is not built. -/
theorem Gadget.precompute_cc_spec_w :
    Gadget.precompute_cc 3 2 exBuild = none :=
  (Gadget.precompute_cc_spec 3 2 exBuild).2.1 (by decide)

lemma tempsOf_getD (M i : ℕ) (h : i < M) :
    (tempsOf M).getD i 0 = (i : ℚ) / ((M : ℚ) - 1) := by
  rw [tempsOf, List.getD_eq_getElem _ _ (by simpa using h), List.getElem_map,
    List.getElem_range]

/-- Claim C7: with mc3 = M above 1, Gadget._init_mcmc builds the tempered
ensemble of exactly M partition samplers at temperatures i / (M - 1), which
increase strictly from 0 to 1; with mc3 = 1 it builds a single sampler with
no temperature argument. -/
theorem Gadget.init_mcmc_spec (M : ℕ) (hM : 1 < M) :
    Gadget.init_mcmc M = MCMCSetup.ensemble (tempsOf M) ∧
    (tempsOf M).length = M ∧
    (∀ i, i < M → (tempsOf M).getD i 0 = (i : ℚ) / ((M : ℚ) - 1)) ∧
    (∀ i j, i < j → j < M →
      (tempsOf M).getD i 0 < (tempsOf M).getD j 0) ∧
    (tempsOf M).getD 0 0 = 0 ∧
    (tempsOf M).getD (M - 1) 0 = 1 ∧
    Gadget.init_mcmc 1 = MCMCSetup.single := by
  have hMQ : (1 : ℚ) < (M : ℚ) := by exact_mod_cast hM
  have hpos : (0 : ℚ) < (M : ℚ) - 1 := by linarith
  refine ⟨by simp [Gadget.init_mcmc, hM], by simp [tempsOf], ?_, ?_, ?_, ?_, rfl⟩
  · intro i hi
    exact tempsOf_getD M i hi
  · intro i j hij hj
    rw [tempsOf_getD M i (lt_trans hij hj), tempsOf_getD M j hj]
    exact (div_lt_div_iff_of_pos_right hpos).mpr (by exact_mod_cast hij)
  · rw [tempsOf_getD M 0 (lt_trans one_pos hM)]
    simp
  · rw [tempsOf_getD M (M - 1) (by omega)]
    rw [Nat.cast_sub (le_of_lt hM), Nat.cast_one]
    exact div_self (ne_of_gt hpos)

/-- Witness for claim C7 at the ensemble size 3. -/
theorem Gadget.init_mcmc_spec_w :
    Gadget.init_mcmc 3 = MCMCSetup.ensemble (tempsOf 3) :=
  (Gadget.init_mcmc_spec 3 (by decide)).1

lemma LocalScore.local_ok (n : ℕ) (scorer : ℤ → Finset ℤ → ℝ)
    (prior : PriorKind) (v : ℤ) (P : Finset ℤ)
    (hv : 0 ≤ v ∧ v < (n : ℤ)) (hP : ∀ u ∈ P, 0 ≤ u ∧ u < (n : ℤ))
    (hvP : v ∉ P) :
    LocalScore.local n scorer prior v P =
      Except.ok (LocalScore.localInner n scorer prior v P) := by
  rw [LocalScore.local, if_neg hvP]
  by_cases hPe : P = ∅
  · rw [if_pos ⟨hv, hPe⟩]
  · have hPne : P.Nonempty := Finset.nonempty_iff_ne_empty.mpr hPe
    have h2 : ¬((0 ≤ v ∧ v < (n : ℤ)) ∧ P = ∅) := fun hc => hPe hc.2
    rw [if_neg h2, dif_pos hPne]
    have hcond : ¬(min v (P.min' hPne) < 0 ∨ (n : ℤ) ≤ max v (P.max' hPne)) := by
      push_neg
      constructor
      · exact le_min hv.1 (hP _ (P.min'_mem hPne)).1
      · exact max_lt hv.2 (hP _ (P.max'_mem hPne)).2
    rw [if_neg hcond]

/-- Claim C6: LocalScore.local raises an error (and never returns a score)
whenever v lies in its own parent set or v or a parent is outside the
variable range, and under the contract precondition it raises nothing and
returns the score. -/
theorem LocalScore.local_spec (n : ℕ) (scorer : ℤ → Finset ℤ → ℝ)
    (prior : PriorKind) (v : ℤ) (P : Finset ℤ) :
    ((v ∈ P ∨ ¬(0 ≤ v ∧ v < (n : ℤ)) ∨ ∃ u ∈ P, ¬(0 ≤ u ∧ u < (n : ℤ))) →
      ∃ e, LocalScore.local n scorer prior v P = Except.error e) ∧
    ((0 ≤ v ∧ v < (n : ℤ)) → (∀ u ∈ P, 0 ≤ u ∧ u < (n : ℤ)) → v ∉ P →
      LocalScore.local n scorer prior v P =
        Except.ok (LocalScore.localInner n scorer prior v P)) := by
  constructor
  · intro h
    by_cases hvP : v ∈ P
    · exact ⟨LocalErr.selfInPset, by rw [LocalScore.local, if_pos hvP]⟩
    · rcases h with h | h | h
      · exact absurd h hvP
      · have h2 : ¬((0 ≤ v ∧ v < (n : ℤ)) ∧ P = ∅) := fun hc => h hc.1
        by_cases hPne : P.Nonempty
        · have hcond : min v (P.min' hPne) < 0 ∨ (n : ℤ) ≤ max v (P.max' hPne) := by
            rcases not_and_or.mp h with hv | hv
            · exact Or.inl (lt_of_le_of_lt (min_le_left _ _) (lt_of_not_le hv))
            · exact Or.inr (le_trans (le_of_not_lt hv) (le_max_left _ _))
          exact ⟨LocalErr.outOfRange,
            by rw [LocalScore.local, if_neg hvP, if_neg h2, dif_pos hPne,
              if_pos hcond]⟩
        · exact ⟨LocalErr.badMinArg,
            by rw [LocalScore.local, if_neg hvP, if_neg h2, dif_neg hPne]⟩
      · obtain ⟨u, huP, hu⟩ := h
        have hPne : P.Nonempty := ⟨u, huP⟩
        have h2 : ¬((0 ≤ v ∧ v < (n : ℤ)) ∧ P = ∅) := by
          intro hc
          rw [hc.2] at huP
          exact absurd huP (Finset.not_mem_empty u)
        have hcond : min v (P.min' hPne) < 0 ∨ (n : ℤ) ≤ max v (P.max' hPne) := by
          rcases not_and_or.mp hu with hu2 | hu2
          · exact Or.inl (lt_of_le_of_lt
              (le_trans (min_le_right _ _) (P.min'_le u huP))
              (lt_of_not_le hu2))
          · exact Or.inr (le_trans (le_of_not_lt hu2)
              (le_trans (P.le_max' u huP) (le_max_right _ _)))
        exact ⟨LocalErr.outOfRange,
          by rw [LocalScore.local, if_neg hvP, if_neg h2, dif_pos hPne,
            if_pos hcond]⟩
  · exact LocalScore.local_ok n scorer prior v P

/-- Concrete oracle used by the LocalScore witnesses. -/
noncomputable def exScorer : ℤ → Finset ℤ → ℝ := fun _ _ => 0

/-- Witness for claim C6: with three variables, the self-membership query
(0, {0}) errors and the valid query (0, {1, 2}) returns the score. -/
theorem LocalScore.local_spec_w :
    (∃ e, LocalScore.local 3 exScorer PriorKind.fair 0 {0} = Except.error e) ∧
    LocalScore.local 3 exScorer PriorKind.fair 0 {1, 2} =
      Except.ok (LocalScore.localInner 3 exScorer PriorKind.fair 0 {1, 2}) :=
  ⟨(LocalScore.local_spec 3 exScorer PriorKind.fair 0 {0}).1 (Or.inl (by decide)),
   (LocalScore.local_spec 3 exScorer PriorKind.fair 0 {1, 2}).2 (by decide)
     (by decide) (by decide)⟩

/-- Claim C10 as amended: on valid queries the exposed local score equals the
external oracle score plus the precomputed fair-prior penalty
-log(C(n - 1, |P|)) (a penalty that is zero whenever the binomial coefficient
is 1, e.g. for the empty parent set), and under the "unif" prior the penalty
is zero, so the oracle score is returned unchanged. -/
theorem LocalScore.local_prior (n : ℕ) (scorer : ℤ → Finset ℤ → ℝ) (v : ℤ)
    (P : Finset ℤ) (hv : 0 ≤ v ∧ v < (n : ℤ))
    (hP : ∀ u ∈ P, 0 ≤ u ∧ u < (n : ℤ)) (hvP : v ∉ P) :
    LocalScore.local n scorer PriorKind.fair v P =
      Except.ok (scorer v P + -Real.log (((n - 1).choose P.card : ℕ))) ∧
    LocalScore.local n scorer PriorKind.unif v P = Except.ok (scorer v P) := by
  constructor
  · rw [LocalScore.local_ok n scorer PriorKind.fair v P hv hP hvP]
    rfl
  · rw [LocalScore.local_ok n scorer PriorKind.unif v P hv hP hvP]
    simp [LocalScore.localInner, LocalScore.priorVal]

/-- Counterexample to claim C10 as stated: the exposed local score can equal
the raw oracle value, namely whenever the fair penalty -log(C(n - 1, |P|))
vanishes; at n = 3, v = 0 and the empty parent set the exposed score is
exactly the oracle output 5. -/
theorem LocalScore.local_prior_cex :
    LocalScore.local 3 (fun _ _ => (5 : ℝ)) PriorKind.fair 0 ∅ =
      Except.ok ((fun _ _ => (5 : ℝ)) (0 : ℤ) (∅ : Finset ℤ)) := by
  rw [LocalScore.local_ok 3 (fun _ _ => (5 : ℝ)) PriorKind.fair 0 ∅
    (by norm_num) (by simp) (by simp)]
  simp [LocalScore.localInner, LocalScore.priorVal, LocalScore.prior_table]

/-- Witness for the amended claim C10 at a valid concrete query. -/
theorem LocalScore.local_prior_w :
    LocalScore.local 3 exScorer PriorKind.fair 0 {1} =
      Except.ok (exScorer 0 {1} +
        -Real.log (((3 - 1).choose ({1} : Finset ℤ).card : ℕ))) ∧
    LocalScore.local 3 exScorer PriorKind.unif 0 {1} =
      Except.ok (exScorer 0 {1}) :=
  LocalScore.local_prior 3 exScorer 0 {1} (by decide) (by decide) (by decide)

lemma sample_DAG_go_eq (st : Score) (rng : ℕ → ℤ) (R : List (Finset ℕ)) :
    ∀ (vs : List ℕ) (k : ℕ) (dag : List (ℕ × Finset ℕ)) (sc : FloatV),
    Option.map Prod.fst (st.sample_DAG_go rng R vs k dag sc) =
      Option.map
        (fun l => (dag ++ l.map Prod.fst, (l.map Prod.snd).foldl faddF sc))
        (st.fam_list rng R vs k) := by
  intro vs
  induction vs with
  | nil =>
    intro k dag sc
    simp [Score.sample_DAG_go, Score.fam_list]
  | cons v vs ih =>
    intro k dag sc
    cases hfa : st.fam_at rng R v k with
    | none => simp [Score.sample_DAG_go, Score.fam_list, hfa]
    | some pk =>
      obtain ⟨⟨fam, fsc⟩, k2⟩ := pk
      simp only [Score.sample_DAG_go, Score.fam_list, hfa]
      rw [ih k2 (dag ++ [fam]) (faddF sc fsc)]
      cases hfl : st.fam_list rng R vs k2 with
      | none => simp
      | some l => simp

lemma fam_list_length (st : Score) (rng : ℕ → ℤ) (R : List (Finset ℕ)) :
    ∀ (vs : List ℕ) (k : ℕ) (fl : List ((ℕ × Finset ℕ) × FloatV)),
    st.fam_list rng R vs k = some fl → fl.length = vs.length := by
  intro vs
  induction vs with
  | nil =>
    intro k fl h
    simp only [Score.fam_list, Option.some.injEq] at h
    rw [← h]
    rfl
  | cons v vs ih =>
    intro k fl h
    simp only [Score.fam_list] at h
    cases hfa : st.fam_at rng R v k with
    | none => rw [hfa] at h; exact absurd h (by simp)
    | some pk =>
      rw [hfa] at h
      obtain ⟨p, k2⟩ := pk
      obtain ⟨l, hl, hfl⟩ := Option.map_eq_some'.mp h
      rw [← hfl]
      simp [ih k2 l hl]

lemma fam_list_get (st : Score) (rng : ℕ → ℤ) (R : List (Finset ℕ)) :
    ∀ (vs : List ℕ) (k : ℕ) (fl : List ((ℕ × Finset ℕ) × FloatV)),
    st.fam_list rng R vs k = some fl →
    ∀ j, j < vs.length →
    ∃ pr, st.fam_at rng R (vs.getD j 0) (k + 2 * nonRootCount R (vs.take j)) =
        some pr ∧ fl.getD j dummyFam = pr.1 := by
  intro vs
  induction vs with
  | nil =>
    intro k fl h j hj
    exact absurd hj (by simp)
  | cons v vs ih =>
    intro k fl h j hj
    simp only [Score.fam_list] at h
    cases hfa : st.fam_at rng R v k with
    | none => rw [hfa] at h; exact absurd h (by simp)
    | some pk =>
      rw [hfa] at h
      obtain ⟨p, k2⟩ := pk
      obtain ⟨l, hl, hfl⟩ := Option.map_eq_some'.mp h
      cases j with
      | zero =>
        refine ⟨(p, k2), ?_, ?_⟩
        · simpa [nonRootCount] using hfa
        · rw [← hfl]
          rfl
      | succ j =>
        have hj2 : j < vs.length := by simpa using hj
        obtain ⟨pr, hpr1, hpr2⟩ := ih k2 l hl j hj2
        have hk : k2 + 2 * nonRootCount R (vs.take j) =
            k + 2 * nonRootCount R ((v :: vs).take (j + 1)) := by
          rw [List.take_succ_cons]
          by_cases hb : blockOf R v = 0
          · have h0 : st.fam_at rng R v k =
                some (((v, (∅ : Finset ℕ)), st.sum v ∅ ∅), k) := by
              simp [Score.fam_at, hb]
            rw [h0] at hfa
            have hk2 : k = k2 :=
              congrArg Prod.snd (Option.some.inj hfa)
            simp [nonRootCount, List.filter_cons, hb, ← hk2]
          · have h0 := hfa
            simp only [Score.fam_at, if_neg hb] at h0
            obtain ⟨fam, hfam, hpk⟩ := Option.map_eq_some'.mp h0
            have hk2 : k + 2 = k2 := congrArg Prod.snd hpk
            have hdec : (decide (blockOf R v ≠ 0)) = true := by simp [hb]
            simp only [nonRootCount, List.filter_cons, hdec, if_true,
              List.length_cons]
            omega
        refine ⟨pr, ?_, ?_⟩
        · rw [← hk]
          simpa using hpr1
        · rw [← hfl]
          simpa using hpr2

lemma foldl_union_mem : ∀ (R : List (Finset ℕ)) (a : Finset ℕ) (v : ℕ),
    v ∈ R.foldl (fun x y => x ∪ y) a ↔ v ∈ a ∨ ∃ B ∈ R, v ∈ B := by
  intro R
  induction R with
  | nil =>
    intro a v
    simp
  | cons B R ih =>
    intro a v
    rw [List.foldl_cons, ih]
    simp only [Finset.mem_union, List.mem_cons]
    constructor
    · rintro (⟨h | h⟩ | ⟨B2, hB2, hv⟩)
      · exact Or.inl h
      · exact Or.inr ⟨B, Or.inl rfl, h⟩
      · exact Or.inr ⟨B2, Or.inr hB2, hv⟩
    · rintro (h | ⟨B2, (rfl | hB2), hv⟩)
      · exact Or.inl (Or.inl h)
      · exact Or.inl (Or.inr hv)
      · exact Or.inr ⟨B2, hB2, hv⟩

lemma blockOf_mem (n : ℕ) (R : List (Finset ℕ)) (v : ℕ)
    (hR : validPart n R) (hv : v < n) : v ∈ R.getD (blockOf R v) ∅ := by
  have hmem : v ∈ R.foldl (fun a b => a ∪ b) ∅ := by
    rw [hR.2.2]
    exact Finset.mem_range.mpr hv
  have hex : ∃ B ∈ R, v ∈ B :=
    ((foldl_union_mem R ∅ v).mp hmem).resolve_left (Finset.not_mem_empty v)
  have hlt : R.findIdx (fun B => decide (v ∈ B)) < R.length := by
    apply List.findIdx_lt_length_of_exists
    obtain ⟨B, hB, hvB⟩ := hex
    exact ⟨B, hB, by simpa using hvB⟩
  have hbo : blockOf R v = R.findIdx (fun B => decide (v ∈ B)) := by
    unfold blockOf
    omega
  rw [hbo, List.getD_eq_getElem _ _ hlt]
  have := List.findIdx_getElem (w := hlt)
  simpa using this

lemma range_getD (n j : ℕ) (h : j < n) : (List.range n).getD j 0 = j := by
  rw [List.getD_eq_getElem _ _ (by simpa using h), List.getElem_range]

/-- Claim C1: for a valid ordered partition R, Score.sample_DAG produces one
family per variable, in variable order: a variable of the first block gets
the empty parent set scored by Score.sum(v, empty, empty), any other variable
gets the result of Score.sample_pset on the union U of all earlier blocks and
the immediately preceding block T (consuming two fresh exponential draws),
and the returned total is the running faddF accumulation of exactly the
per-family scores. -/
theorem Score.sample_DAG_spec (st : Score) (rng : ℕ → ℤ) (k : ℕ)
    (R : List (Finset ℕ)) (hR : validPart st.n R)
    (dag : List (ℕ × Finset ℕ)) (total : FloatV) (kf : ℕ)
    (h : st.sample_DAG rng k R = some ((dag, total), kf)) :
    ∃ fl, st.fam_list rng R (List.range st.n) k = some fl ∧
      dag = fl.map Prod.fst ∧
      total = (fl.map Prod.snd).foldl faddF (FloatV.fin 0) ∧
      fl.length = st.n ∧
      ∀ v, v < st.n →
        v ∈ R.getD (blockOf R v) ∅ ∧
        (blockOf R v = 0 →
          fl.getD v dummyFam = ((v, (∅ : Finset ℕ)), st.sum v ∅ ∅)) ∧
        (blockOf R v ≠ 0 →
          ∃ fam, st.sample_pset (rng (k + 2 * nonRootCount R (List.range v)))
              (rng (k + 2 * nonRootCount R (List.range v) + 1)) v
              (unionTake R (blockOf R v)) (R.getD (blockOf R v - 1) ∅) =
            some fam ∧ fl.getD v dummyFam = fam) := by
  have hmap := sample_DAG_go_eq st rng R (List.range st.n) k [] (FloatV.fin 0)
  rw [Score.sample_DAG] at h
  rw [h] at hmap
  obtain ⟨fl, hfl, hval⟩ := Option.map_eq_some'.mp hmap.symm
  have hdag : dag = fl.map Prod.fst := by
    have h2 := congrArg Prod.fst hval
    simpa using h2.symm
  have htot : total = (fl.map Prod.snd).foldl faddF (FloatV.fin 0) := by
    have h2 := congrArg Prod.snd hval
    simpa using h2.symm
  have hlen : fl.length = st.n := by
    simpa using fam_list_length st rng R (List.range st.n) k fl hfl
  refine ⟨fl, hfl, hdag, htot, hlen, ?_⟩
  intro v hv
  obtain ⟨pr, hpr1, hpr2⟩ :=
    fam_list_get st rng R (List.range st.n) k fl hfl v (by simpa using hv)
  have htake : (List.range st.n).take v = List.range v := by
    rw [List.take_range]
    congr 1
    omega
  rw [range_getD st.n v hv, htake] at hpr1
  refine ⟨blockOf_mem st.n R v hR hv, ?_, ?_⟩
  · intro hb
    have h0 : st.fam_at rng R v (k + 2 * nonRootCount R (List.range v)) =
        some (((v, (∅ : Finset ℕ)), st.sum v ∅ ∅),
          k + 2 * nonRootCount R (List.range v)) := by
      simp [Score.fam_at, hb]
    rw [h0] at hpr1
    exact hpr2.trans (congrArg Prod.fst (Option.some.inj hpr1)).symm
  · intro hb
    have h0 := hpr1
    simp only [Score.fam_at, if_neg hb] at h0
    obtain ⟨fam, hfam, hpk⟩ := Option.map_eq_some'.mp h0
    refine ⟨fam, hfam, ?_⟩
    rw [hpr2, ← hpk]

/-- Concrete exponential-draw stream used by the witnesses: every draw is 1. -/
def exRng : ℕ → ℤ := fun _ => 1

/-- Concrete valid ordered partition used by the witnesses. -/
def exR : List (Finset ℕ) := [{0}, {1, 2}]

/-- Witness for claim C1 at the concrete model: the run on the partition
[{0}, {1, 2}] succeeds and the family list underlying the returned DAG is
recovered. -/
theorem Score.sample_DAG_spec_w :
    ∃ fl, Score.fam_list exScore exRng exR (List.range (Score.n exScore)) 0 =
        some fl ∧
      [(0, (∅ : Finset ℕ)), (1, ({0} : Finset ℕ)), (2, ({0} : Finset ℕ))] =
        fl.map Prod.fst ∧
      FloatV.fin 0 = (fl.map Prod.snd).foldl faddF (FloatV.fin 0) := by
  obtain ⟨fl, h1, h2, h3, _⟩ :=
    Score.sample_DAG_spec exScore exRng 0 exR (by decide)
      [(0, (∅ : Finset ℕ)), (1, ({0} : Finset ℕ)), (2, ({0} : Finset ℕ))]
      (FloatV.fin 0) 4 (by decide)
  exact ⟨fl, h1, h2, h3⟩

lemma chainAfter_succ_shift {σ : Type} (m : MCMCModel σ) (s : σ) (n : ℕ) :
    chainAfter m s (n + 1) = chainAfter m (chainStep m s) n := by
  induction n with
  | zero => rfl
  | succ n ih =>
    show chainStep m (chainAfter m s (n + 1)) = _
    rw [ih]
    rfl

lemma chainAfter_add {σ : Type} (m : MCMCModel σ) (s : σ) (a b : ℕ) :
    chainAfter m s (a + b) = chainAfter m (chainAfter m s a) b := by
  induction b with
  | zero => rfl
  | succ b ih =>
    show chainStep m (chainAfter m s (a + b)) = _
    rw [ih]
    rfl

lemma recsFrom_shift {σ : Type} (st : Score) (rng : ℕ → ℤ) (m : MCMCModel σ)
    (s : σ) :
    ∀ (os : List ℕ) (k : ℕ),
    recsFrom st rng m s (os.map Nat.succ) k =
      recsFrom st rng m (chainStep m s) os k := by
  intro os
  induction os with
  | nil => intro k; rfl
  | cons o os ih =>
    intro k
    simp only [List.map_cons, recsFrom]
    rw [show Nat.succ o = o + 1 from rfl, chainAfter_succ_shift]
    cases hd : Score.sample_DAG st rng k
        (m.step (chainAfter m (chainStep m s) o)).2 with
    | none => rfl
    | some pk =>
      obtain ⟨p, k2⟩ := pk
      have hih := ih k2
      cases hr : recsFrom st rng m (chainStep m s) os k2 with
      | none =>
        rw [hr] at hih
        simp [hih, hr]
      | some lk =>
        rw [hr] at hih
        simp [hih, hr]

lemma range_filter_succ (thinning i steps : ℕ) :
    (List.range (steps + 1)).filter (fun o => (i + o) % thinning = 0) =
      (if i % thinning = 0 then [0] else []) ++
        ((List.range steps).filter
          (fun o => ((i + 1) + o) % thinning = 0)).map Nat.succ := by
  rw [List.range_succ_eq_map, List.filter_cons]
  have hmap : ∀ (l : List ℕ) (p : ℕ → Bool),
      (l.map Nat.succ).filter p = (l.filter (fun o => p (o + 1))).map Nat.succ := by
    intro l p
    induction l with
    | nil => rfl
    | cons a l ih =>
      by_cases h : p (a + 1)
      · simp [List.filter_cons, Nat.succ_eq_add_one, h, ih]
      · simp [List.filter_cons, Nat.succ_eq_add_one, h, ih]
  rw [hmap]
  have harg : (fun o => decide ((i + (o + 1)) % thinning = 0)) =
      (fun o => decide (((i + 1) + o) % thinning = 0)) := by
    funext o
    have h2 : i + (o + 1) = (i + 1) + o := by omega
    rw [h2]
  by_cases hi : i % thinning = 0
  · have h0 : (decide ((i + 0) % thinning = 0)) = true := by simpa using hi
    simp [h0, hi, harg]
  · have h0 : (decide ((i + 0) % thinning = 0)) = false := by simpa using hi
    simp [h0, hi, harg]

lemma samplingLoop_eq {σ : Type} (st : Score) (rng : ℕ → ℤ) (m : MCMCModel σ)
    (thinning : ℕ) :
    ∀ (steps i : ℕ) (s : σ) (k : ℕ),
    samplingLoop st rng m thinning steps i s k =
      Option.map (fun pr =>
        ((pr.1.map Prod.fst, pr.1.map Prod.snd), chainAfter m s steps, pr.2))
        (recsFrom st rng m s
          ((List.range steps).filter (fun o => (i + o) % thinning = 0)) k) := by
  intro steps
  induction steps with
  | zero =>
    intro i s k
    rfl
  | succ steps ih =>
    intro i s k
    rw [range_filter_succ]
    by_cases hi : i % thinning = 0
    · simp only [samplingLoop]
      rw [if_pos hi, if_pos hi, List.singleton_append]
      simp only [recsFrom, chainAfter]
      cases hd : Score.sample_DAG st rng k (m.step s).2 with
      | none => rfl
      | some pk =>
        obtain ⟨⟨dag, sc⟩, k2⟩ := pk
        have hih := ih (i + 1) (m.step s).1 k2
        have hshift := recsFrom_shift st rng m s
          ((List.range steps).filter (fun o => ((i + 1) + o) % thinning = 0)) k2
        cases hr : recsFrom st rng m (chainStep m s)
            ((List.range steps).filter (fun o => ((i + 1) + o) % thinning = 0))
            k2 with
        | none =>
          rw [hr] at hshift
          rw [show chainStep m s = (m.step s).1 from rfl] at hr
          rw [hr] at hih
          simp [hih, hshift]
        | some lk =>
          rw [hr] at hshift
          rw [show chainStep m s = (m.step s).1 from rfl] at hr
          rw [hr] at hih
          simp [hih, hshift]
          exact (chainAfter_succ_shift m s steps).symm
    · simp only [samplingLoop]
      rw [if_neg hi, if_neg hi, List.nil_append]
      rw [ih (i + 1) (chainStep m s) k]
      rw [recsFrom_shift]
      rw [chainAfter_succ_shift]

lemma recsFrom_length {σ : Type} (st : Score) (rng : ℕ → ℤ) (m : MCMCModel σ)
    (s : σ) :
    ∀ (os : List ℕ) (k : ℕ) (pr),
    recsFrom st rng m s os k = some pr → pr.1.length = os.length := by
  intro os
  induction os with
  | nil =>
    intro k pr h
    simp only [recsFrom, Option.some.injEq] at h
    rw [← h]
    rfl
  | cons o os ih =>
    intro k pr h
    simp only [recsFrom] at h
    cases hd : Score.sample_DAG st rng k (m.step (chainAfter m s o)).2 with
    | none => rw [hd] at h; exact absurd h (by simp)
    | some pk =>
      obtain ⟨p, k2⟩ := pk
      rw [hd] at h
      dsimp only at h
      cases hr : recsFrom st rng m s os k2 with
      | none => rw [hr] at h; exact absurd h (by simp)
      | some lk =>
        obtain ⟨l, k3⟩ := lk
        rw [hr] at h
        simp only [Option.some.injEq] at h
        rw [← h]
        have := ih k2 (l, k3) hr
        simp only [List.length_cons]
        simpa using congrArg Nat.succ this

/-- Claim C4: Gadget._run_mcmc performs burn_in discarded chain steps, then
exactly the configured number of sampling iterations, each advancing the
chain once; a (DAG, score) pair is recorded exactly at the sampling
iterations i with i mod thinning = 0, each pair produced by Score.sample_DAG
on the partition drawn at the chain state reached after burn_in + i steps;
dags and dag_scores are the two equal-length projections of that ordered
record list, and no pair is recorded during burn-in. -/
theorem Gadget.run_mcmc_spec {σ : Type} (st : Score) (rng : ℕ → ℤ)
    (m : MCMCModel σ) (s0 : σ) (burn_in iterations thinning k0 : ℕ)
    (hthin : 0 < thinning) :
    Gadget.run_mcmc st rng m s0 burn_in iterations thinning k0 =
      Option.map (fun pr =>
        ((pr.1.map Prod.fst, pr.1.map Prod.snd),
          chainAfter m s0 (burn_in + iterations), pr.2))
        (recsFrom st rng m (chainAfter m s0 burn_in)
          (thinnedIdxs iterations thinning) k0) ∧
    (∀ o, o ∈ thinnedIdxs iterations thinning ↔
      o < iterations ∧ o % thinning = 0) ∧
    (∀ o, chainAfter m (chainAfter m s0 burn_in) o =
      chainAfter m s0 (burn_in + o)) ∧
    (∀ r, Gadget.run_mcmc st rng m s0 burn_in iterations thinning k0 = some r →
      r.1.1.length = r.1.2.length ∧
      r.1.1.length = (thinnedIdxs iterations thinning).length) := by
  have hpred : (fun o => decide ((0 + o) % thinning = 0)) =
      (fun o => decide (o % thinning = 0)) := by
    funext o
    rw [Nat.zero_add]
  have hmain : Gadget.run_mcmc st rng m s0 burn_in iterations thinning k0 =
      Option.map (fun pr =>
        ((pr.1.map Prod.fst, pr.1.map Prod.snd),
          chainAfter m s0 (burn_in + iterations), pr.2))
        (recsFrom st rng m (chainAfter m s0 burn_in)
          (thinnedIdxs iterations thinning) k0) := by
    rw [Gadget.run_mcmc, samplingLoop_eq, chainAfter_add m s0 burn_in iterations]
    rw [thinnedIdxs, ← hpred]
  refine ⟨hmain, ?_, ?_, ?_⟩
  · intro o
    simp [thinnedIdxs, List.mem_filter, List.mem_range]
  · intro o
    exact (chainAfter_add m s0 burn_in o).symm
  · intro r hr
    rw [hmain] at hr
    obtain ⟨pr, hpr, hF⟩ := Option.map_eq_some'.mp hr
    have hlen := recsFrom_length st rng m (chainAfter m s0 burn_in)
      (thinnedIdxs iterations thinning) k0 pr hpr
    rw [← hF]
    simp [hlen]

/-- Concrete single-chain model used by the C4 witness: every step yields the
partition exR. -/
def exMC : MCMCModel Unit := { step := fun _ => ((), exR) }

/-- Witness for claim C4 at the concrete model: burn-in 1, two sampling
iterations, thinning 2. -/
theorem Gadget.run_mcmc_spec_w :
    Gadget.run_mcmc exScore exRng exMC () 1 2 2 0 =
      Option.map (fun pr =>
        ((pr.1.map Prod.fst, pr.1.map Prod.snd),
          chainAfter exMC () (1 + 2), pr.2))
        (recsFrom exScore exRng exMC (chainAfter exMC () 1)
          (thinnedIdxs 2 2) 0) :=
  (Gadget.run_mcmc_spec exScore exRng exMC () 1 2 2 0 (by decide)).1
